import Mathlib

/-!
Verification of the marker persistence layer, folder scanner, user registry
and route layer of the TOEIC LC player (`flask_app_v0r2_render.py`), as a
shallow embedding in Lean.

Conventions:
- Python/JSON values arriving in a request body are embedded as `Jval`.
- Marker timestamps are embedded as exact rationals (`ℚ`); the `time_sec REAL`
  column of the schema declared in `init_db` is modelled without the rounding
  of 32-bit floats, which no claim here depends on.
- The `markers` table is embedded as a list of rows in insertion order; the
  `ORDER BY` clauses of the source's queries are realized by stable insertion
  sort over the corresponding row projections.
- A raised Python exception is embedded as an `Except`/outcome error value.
-/

namespace ToeicPlayer

/-- A JSON-shaped Python value, the element type of the `markers` payload that
`save_markers(filename, username)` receives via `request.json`. -/
inductive Jval where
  | num (q : ℚ)
  | str (s : String)
  | boolV (b : Bool)
  | null
  | arr (xs : List Jval)
  | obj (kvs : List (String × Jval))

/-- A stored marker as returned by `load_markers_from_db`:
`{'time': row[0], 'label': row[1]}`. -/
structure Marker where
  time : ℚ
  label : String
deriving DecidableEq

/-- A row of the `markers` table created by `init_db`
(`username`, `audio_path`, `time_sec REAL NOT NULL`, `label TEXT DEFAULT ''`);
the `id` and `created_at` columns are never read by the program and are
omitted. -/
structure Row where
  username : String
  audio_path : String
  time_sec : ℚ
  label : String
deriving DecidableEq

/-- Python `dict.get k` on a JSON object: the value at key `k`, if present. -/
def objGet (kvs : List (String × Jval)) (k : String) : Option Jval :=
  (kvs.find? fun p => p.1 = k).map Prod.snd

/-- Whitespace accepted/stripped by Python's `str.strip` and `float()`
(modelled for the ASCII whitespace characters). -/
def isPySpace (c : Char) : Bool :=
  c = ' ' ∨ c = '\t' ∨ c = '\n' ∨ c = '\r' ∨ c.toNat = 11 ∨ c.toNat = 12

/-- Strip leading and trailing whitespace from a character list. -/
def trimChars (cs : List Char) : List Char :=
  ((cs.dropWhile isPySpace).reverse.dropWhile isPySpace).reverse

/-- Python's `str.strip()` (modelled for ASCII whitespace). -/
def strTrim (s : String) : String :=
  String.mk (trimChars s.toList)

/-- A `digitpart` of Python's float literal grammar — a nonempty run of
ASCII digits with single underscores strictly between digits — continued
after its first digit: accumulates the value and the digit count, and
rejects misplaced underscores. -/
def digitPartAux : ℕ → ℕ → List Char → Option (ℕ × ℕ)
  | acc, cnt, [] => some (acc, cnt)
  | acc, cnt, '_' :: c :: cs =>
      if c.isDigit then digitPartAux (acc * 10 + (c.toNat - 48)) (cnt + 1) cs else none
  | _, _, ['_'] => none
  | acc, cnt, c :: cs =>
      if c.isDigit then digitPartAux (acc * 10 + (c.toNat - 48)) (cnt + 1) cs else none

/-- A complete `digitpart`: its value and its number of digits, `none` when
the run is empty or an underscore is not strictly between digits. -/
def digitPartVal : List Char → Option (ℕ × ℕ)
  | [] => none
  | c :: rest => if c.isDigit then digitPartAux (c.toNat - 48) 1 rest else none

/-- Split a character list at the first separator character, when present. -/
def splitAtFirst (isSep : Char → Bool) : List Char → List Char × Option (List Char)
  | [] => ([], none)
  | c :: cs =>
      if isSep c then ([], some cs)
      else
        let r := splitAtFirst isSep cs
        (c :: r.1, r.2)

/-- The mantissa of a finite float literal (`digitpart ["." [digitpart]]`,
`digitpart "."` or `"." digitpart`): its value scaled to an integer together
with the number of fraction digits. -/
def mantissaVal (cs : List Char) : Option (ℕ × ℕ) :=
  match splitAtFirst (fun c => c = '.') cs with
  | (ip, none) => (digitPartVal ip).map fun p => (p.1, 0)
  | ([], some fp) => (digitPartVal fp).map fun p => (p.1, p.2)
  | (ip, some []) => (digitPartVal ip).map fun p => (p.1, 0)
  | (ip, some fp) => do
      let i ← digitPartVal ip
      let fr ← digitPartVal fp
      pure (i.1 * 10 ^ fr.2 + fr.1, fr.2)

/-- The exponent of a float literal (`("e"|"E") [sign] digitpart`), after
its `e`. -/
def exponentVal : List Char → Option ℤ
  | '+' :: rest => (digitPartVal rest).map fun p => (p.1 : ℤ)
  | '-' :: rest => (digitPartVal rest).map fun p => -(p.1 : ℤ)
  | rest => (digitPartVal rest).map fun p => (p.1 : ℤ)

/-- `m * 10 ^ e` as an exact rational. -/
def applyTenPow (m : ℕ) (e : ℤ) : ℚ :=
  if e = 0 then (m : ℚ)
  else if 0 ≤ e then (m : ℚ) * (10 : ℚ) ^ e.toNat
  else (m : ℚ) / (10 : ℚ) ^ (-e).toNat

/-- Python's `float()` on a string, modelled for finite decimal literals:
surrounding whitespace (ASCII), an optional sign, digit runs with
underscores strictly between digits, an optional fraction and an optional
exponent, evaluated exactly as a rational (the rounding to a binary float
is not modelled, consistently with the treatment of `time_sec`). The
non-finite successes of `float()` (`"inf"`, `"infinity"`, `"nan"` in any
case) produce values outside ℚ, and non-ASCII digit strings are outside the
modelled fragment: both yield `none` here, so `none` does NOT mean
"`float()` raises", and no theorem reads it that way — theorems about
strings only use the `some` direction. -/
def pyFloatStr (s : String) : Option ℚ :=
  let cs := trimChars s.toList
  let signed : Bool × List Char :=
    match cs with
    | '-' :: rest => (true, rest)
    | '+' :: rest => (false, rest)
    | rest => (false, rest)
  let parts := splitAtFirst (fun c => c = 'e' ∨ c = 'E') signed.2
  do
    let m ← mantissaVal parts.1
    let e ← match parts.2 with
            | none => pure (0 : ℤ)
            | some ecs => exponentVal ecs
    let q := applyTenPow m.1 (e - (m.2 : ℤ))
    pure (if signed.1 then -q else q)

/-- Python's builtin `float()` applied to a non-`dict` value, as in the
`else` branch of `save_markers_to_db`: numbers coerce to themselves,
booleans to `1.0`/`0.0`, strings parse per `pyFloatStr` (whose `none` also
covers the out-of-model string successes, see there); `None` and lists
raise `TypeError`, modelled as `none`. -/
def pyFloat : Jval → Option ℚ
  | .num q => some q
  | .boolV b => some (if b then 1 else 0)
  | .str s => pyFloatStr s
  | _ => none

/-- Adaption of a Python value as the `time_sec` insert parameter. The
column is declared `REAL NOT NULL` in `init_db`, so a numeric value is
stored and a `None` (NULL) value makes the `INSERT` fail. Non-numeric,
non-null shapes (e.g. a numeric string, which PostgreSQL would coerce from
a quoted literal) are outside the modelled fragment and also map to `none`;
no theorem relies on the `none` outcome beyond the `null` case. -/
def coerceTime : Jval → Option ℚ
  | .num q => some q
  | _ => none

/-- Adaption of a Python value as the `label` insert parameter (`TEXT`
column): a string is stored. Other shapes (a `null` label, which the
nullable column would accept as SQL NULL, or non-string values) are outside
the modelled fragment and map to `none`; no theorem relies on the `none`
outcome here. -/
def coerceLabel : Jval → Option String
  | .str s => some s
  | _ => none

/-- Normalization of one entry of the `markers` payload, as performed by the
loop body of `save_markers_to_db`: a `dict` yields
`(marker.get('time', marker.get('t', 0)), marker.get('label', ''))`, anything
else yields `(float(marker), '')`; `none` means the iteration raises (either
`float()` fails or the insert parameters violate the column types). -/
def normalizeMarker : Jval → Option Marker
  | .obj kvs =>
      match coerceTime ((objGet kvs "time").getD ((objGet kvs "t").getD (Jval.num 0))),
            coerceLabel ((objGet kvs "label").getD (Jval.str "")) with
      | some t, some l => some ⟨t, l⟩
      | _, _ => none
  | v => (pyFloat v).map fun q => ⟨q, ""⟩

/-- `DELETE FROM markers WHERE username=%s AND audio_path=%s`. -/
def deleteMarkers (db : List Row) (u f : String) : List Row :=
  db.filter fun r => ¬(r.username = u ∧ r.audio_path = f)

/-- `INSERT INTO markers ... ON CONFLICT (username, audio_path, time_sec) DO
NOTHING`: the row is appended unless a row with the same key already
exists. -/
def insertMarker (work : List Row) (u f : String) (t : ℚ) (l : String) : List Row :=
  if work.any fun r => r.username = u ∧ r.audio_path = f ∧ r.time_sec = t then work
  else work ++ [⟨u, f, t, l⟩]

/-- The insert loop of `save_markers_to_db` over the working (uncommitted)
table state; `Except.error ()` is the raised exception (after `rollback`). -/
def runInserts (u f : String) : List Row → List Jval → Except Unit (List Row)
  | work, [] => .ok work
  | work, m :: ms =>
      match normalizeMarker m with
      | none => .error ()
      | some mk => runInserts u f (insertMarker work u f mk.time mk.label) ms

/-- `save_markers_to_db(username, audio_path, markers)`: delete the existing
set, insert each normalized entry, commit. `Except.error ()` is the raised
exception; by the `conn.rollback()` in the handler the committed table is
then unchanged. -/
def save_markers_to_db (db : List Row) (u f : String) (markers : List Jval) :
    Except Unit (List Row) :=
  runInserts u f (deleteMarkers db u f) markers

/-- The `(time_sec, label)` projection of the rows of one `(username,
audio_path)` key, in table order. -/
def rowsFor (u f : String) (db : List Row) : List Marker :=
  (db.filter fun r => r.username = u ∧ r.audio_path = f).map fun r => ⟨r.time_sec, r.label⟩

/-- Comparison realizing `ORDER BY time_sec`. -/
def timeLE (a b : Marker) : Prop := a.time ≤ b.time

instance : DecidableRel timeLE := fun a b => inferInstanceAs (Decidable (a.time ≤ b.time))

instance : IsTotal Marker timeLE := ⟨fun a b => le_total a.time b.time⟩

instance : IsTrans Marker timeLE := ⟨fun _ _ _ h1 h2 => le_trans h1 h2⟩

/-- `load_markers_from_db(username, audio_path)`, success path:
`SELECT time_sec, label FROM markers WHERE username=%s AND audio_path=%s
ORDER BY time_sec`. -/
def load_markers_from_db (db : List Row) (u f : String) : List Marker :=
  List.insertionSort timeLE (rowsFor u f db)

/-- First-write-wins deduplication by timestamp, relative to an already-seen
set of timestamps: the effect of `ON CONFLICT DO NOTHING` over one insert
loop. -/
def dedupFirstAux : List ℚ → List Marker → List Marker
  | _, [] => []
  | seen, m :: ms =>
      if m.time ∈ seen then dedupFirstAux seen ms
      else m :: dedupFirstAux (m.time :: seen) ms

/-- First-write-wins deduplication by timestamp. -/
def dedupFirst (l : List Marker) : List Marker :=
  dedupFirstAux [] l

lemma mem_deleteMarkers {db : List Row} {u f : String} {r : Row} :
    r ∈ deleteMarkers db u f → ¬(r.username = u ∧ r.audio_path = f) := by
  intro hr hcon
  have h := List.of_mem_filter hr
  simp [hcon.1, hcon.2] at h

lemma rowsFor_deleteMarkers (db : List Row) (u f : String) :
    rowsFor u f (deleteMarkers db u f) = [] := by
  have h : (deleteMarkers db u f).filter
      (fun r => decide (r.username = u ∧ r.audio_path = f)) = [] := by
    rw [List.filter_eq_nil_iff]
    intro r hr
    have h2 := mem_deleteMarkers hr
    simp only [decide_eq_true_eq]
    tauto
  simp only [rowsFor, h, List.map_nil]

lemma any_eq_rowsFor (work : List Row) (u f : String) (t : ℚ) :
    (work.any fun r => r.username = u ∧ r.audio_path = f ∧ r.time_sec = t) = true ↔
      ∃ m ∈ rowsFor u f work, m.time = t := by
  simp only [List.any_eq_true, decide_eq_true_eq, rowsFor, List.mem_map, List.mem_filter,
    decide_eq_true_eq]
  constructor
  · rintro ⟨r, hr, h1, h2, h3⟩
    exact ⟨⟨r.time_sec, r.label⟩, ⟨r, ⟨hr, by simp [h1, h2]⟩, rfl⟩, h3⟩
  · rintro ⟨m, ⟨r, ⟨hr, hcond⟩, hm⟩, ht⟩
    refine ⟨r, hr, hcond.1, hcond.2, ?_⟩
    rw [← hm] at ht
    exact ht

lemma rowsFor_append_own (work : List Row) (u f : String) (t : ℚ) (l : String) :
    rowsFor u f (work ++ [⟨u, f, t, l⟩]) = rowsFor u f work ++ [⟨t, l⟩] := by
  simp [rowsFor, List.filter_append]

/-- Invariant of the insert loop: starting from a working table whose
`(u, f)` timestamps are exactly `seen`, a successful run appends exactly the
first-write-wins deduplication of the normalized entries. -/
lemma runInserts_rowsFor (u f : String) (ms : List Jval) :
    ∀ (work : List Row) (seen : List ℚ) (res : List Row),
      runInserts u f work ms = .ok res →
      (∀ q : ℚ, q ∈ seen ↔ ∃ m ∈ rowsFor u f work, m.time = q) →
      rowsFor u f res = rowsFor u f work ++ dedupFirstAux seen (ms.filterMap normalizeMarker) := by
  induction ms with
  | nil =>
      intro work seen res hrun _
      simp only [runInserts, Except.ok.injEq] at hrun
      subst hrun
      simp [dedupFirstAux]
  | cons m rest ih =>
      intro work seen res hrun hseen
      cases hnorm : normalizeMarker m with
      | none =>
          simp only [runInserts, hnorm] at hrun
          exact Except.noConfusion hrun
      | some mk =>
          simp only [runInserts, hnorm] at hrun
          rw [List.filterMap_cons, hnorm]
          simp only [dedupFirstAux]
          by_cases hmem : mk.time ∈ seen
          · have hany : (work.any fun r =>
                r.username = u ∧ r.audio_path = f ∧ r.time_sec = mk.time) = true :=
              (any_eq_rowsFor work u f mk.time).2 ((hseen mk.time).1 hmem)
            rw [if_pos hmem]
            have hins : insertMarker work u f mk.time mk.label = work := by
              simp only [insertMarker, hany]
              simp
            rw [hins] at hrun
            exact ih work seen res hrun hseen
          · have hany : (work.any fun r =>
                r.username = u ∧ r.audio_path = f ∧ r.time_sec = mk.time) = false := by
              cases h : (work.any fun r =>
                  r.username = u ∧ r.audio_path = f ∧ r.time_sec = mk.time) with
              | false => rfl
              | true =>
                  exact absurd ((hseen mk.time).2 ((any_eq_rowsFor work u f mk.time).1 h)) hmem
            rw [if_neg hmem]
            have hins : insertMarker work u f mk.time mk.label
                = work ++ [⟨u, f, mk.time, mk.label⟩] := by
              simp only [insertMarker, hany]
              simp
            rw [hins] at hrun
            have hseen' : ∀ q : ℚ, q ∈ mk.time :: seen ↔
                ∃ m' ∈ rowsFor u f (work ++ [⟨u, f, mk.time, mk.label⟩]), m'.time = q := by
              intro q
              rw [rowsFor_append_own]
              constructor
              · intro hq
                rcases List.mem_cons.1 hq with hq | hq
                · exact ⟨⟨mk.time, mk.label⟩,
                    List.mem_append_right _ (List.mem_singleton.2 rfl), hq.symm⟩
                · obtain ⟨m', hm', ht⟩ := (hseen q).1 hq
                  exact ⟨m', List.mem_append_left _ hm', ht⟩
              · rintro ⟨m', hm', ht⟩
                rcases List.mem_append.1 hm' with hm' | hm'
                · exact List.mem_cons.2 (Or.inr ((hseen q).2 ⟨m', hm', ht⟩))
                · have heq : m' = ⟨mk.time, mk.label⟩ := List.mem_singleton.1 hm'
                  subst heq
                  exact List.mem_cons.2 (Or.inl ht.symm)
            have hres := ih (work ++ [⟨u, f, mk.time, mk.label⟩]) (mk.time :: seen) res hrun hseen'
            rw [hres, rowsFor_append_own, List.append_assoc, List.singleton_append]

/-- C1: for every user, file and input marker list, a successful
`save_markers_to_db` (replace_markers) followed immediately by
`load_markers_from_db` (load_markers) for the same `(user, file)` returns
exactly the normalized input set, sorted ascending by time, with entries
whose timestamps duplicate an earlier entry's timestamp collapsed to the
first occurrence. -/
theorem save_then_load_roundtrip (db : List Row) (u f : String) (markers : List Jval)
    (db' : List Row) (hok : save_markers_to_db db u f markers = .ok db') :
    load_markers_from_db db' u f
      = List.insertionSort timeLE (dedupFirst (markers.filterMap normalizeMarker)) := by
  have hrows : rowsFor u f db' = dedupFirst (markers.filterMap normalizeMarker) := by
    have h := runInserts_rowsFor u f markers (deleteMarkers db u f) [] db' hok (by
      intro q
      rw [rowsFor_deleteMarkers]
      simp)
    rw [rowsFor_deleteMarkers] at h
    simpa [dedupFirst] using h
  rw [load_markers_from_db, hrows]

/-- Witness for C1 at a concrete input with a duplicate timestamp. -/
theorem save_then_load_roundtrip_witness :
    load_markers_from_db [⟨"alice", "a.mp3", 2, ""⟩, ⟨"alice", "a.mp3", 1, ""⟩] "alice" "a.mp3"
      = List.insertionSort timeLE (dedupFirst
          ([Jval.num 2, Jval.num 1, Jval.num 2].filterMap normalizeMarker)) :=
  save_then_load_roundtrip [] "alice" "a.mp3" [Jval.num 2, Jval.num 1, Jval.num 2]
    [⟨"alice", "a.mp3", 2, ""⟩, ⟨"alice", "a.mp3", 1, ""⟩] rfl

/-- Outcome of one execution of `save_markers_to_db`, carrying the committed
table contents afterwards: `err db` is a raised exception with the table
rolled back to `db`. -/
inductive SaveOutcome where
  | ok (table : List Row)
  | err (table : List Row)
deriving DecidableEq

/-- The insert loop of `save_markers_to_db` with fault injection: statement
number `i` counts the database operations issued so far (0 =
`get_db_connection`, 1 = the `DELETE`, `2+k` = the insert of entry `k`, and
the statement after the last insert is the `COMMIT`). A failure injected at
the current statement — or a normalization failure — raises, and by
`conn.rollback()` the committed table stays `db`. -/
def saveStepsGo (db : List Row) (u f : String) (failAt : Option ℕ) :
    List Row → List Jval → ℕ → SaveOutcome
  | work, [], i => if failAt = some i then .err db else .ok work
  | work, m :: ms, i =>
      if failAt = some i then .err db
      else
        match normalizeMarker m with
        | none => .err db
        | some mk => saveStepsGo db u f failAt (insertMarker work u f mk.time mk.label) ms (i + 1)

/-- `save_markers_to_db` with fault injection (see `saveStepsGo`): the whole
delete-then-insert sequence runs on an uncommitted working state inside one
transaction; only the final `COMMIT` publishes it. -/
def save_markers_steps (db : List Row) (u f : String) (markers : List Jval)
    (failAt : Option ℕ) : SaveOutcome :=
  if failAt = some 0 then .err db
  else if failAt = some 1 then .err db
  else saveStepsGo db u f failAt (deleteMarkers db u f) markers 2

lemma saveStepsGo_fail (db : List Row) (u f : String) (k : ℕ) (ms : List Jval) :
    ∀ (work : List Row) (i : ℕ), i ≤ k → k ≤ i + ms.length →
      saveStepsGo db u f (some k) work ms i = .err db := by
  induction ms with
  | nil =>
      intro work i h1 h2
      simp only [List.length_nil, Nat.add_zero] at h2
      have hki : k = i := by omega
      simp [saveStepsGo, hki]
  | cons m rest ih =>
      intro work i h1 h2
      by_cases hk : k = i
      · simp [saveStepsGo, hk]
      · have hne : (some k = some i) = False := by simp [hk]
        simp only [saveStepsGo, hne, if_false]
        cases normalizeMarker m with
        | none => rfl
        | some mk =>
            exact ih (insertMarker work u f mk.time mk.label) (i + 1)
              (by omega) (by simp only [List.length_cons] at h2; omega)

/-- C2: if the storage medium is unreachable or any statement of the
delete-then-insert-commit sequence of `save_markers_to_db` fails, the
operation fails with the error propagated to the caller (the exception is
re-raised after `conn.rollback()`) and the committed table — in particular
the previously stored MarkerSet for that key — is unchanged. -/
theorem save_failure_rollback (db : List Row) (u f : String) (markers : List Jval)
    (k : ℕ) (hk : k ≤ markers.length + 2) :
    save_markers_steps db u f markers (some k) = .err db := by
  rcases Nat.lt_or_ge k 2 with h2 | h2
  · interval_cases k <;> simp [save_markers_steps]
  · have h0 : ¬(k = 0) := by omega
    have h1 : ¬(k = 1) := by omega
    simp only [save_markers_steps, Option.some.injEq, h0, h1, if_false]
    exact saveStepsGo_fail db u f k markers (deleteMarkers db u f) 2 h2 (by omega)

/-- Witness for C2: a failure injected at the first insert statement leaves
the previously stored row intact and reports the error. -/
theorem save_failure_rollback_witness :
    save_markers_steps [⟨"bob", "b.mp3", 1, "keep"⟩] "bob" "b.mp3" [Jval.num 5] (some 2)
      = .err [⟨"bob", "b.mp3", 1, "keep"⟩] :=
  save_failure_rollback [⟨"bob", "b.mp3", 1, "keep"⟩] "bob" "b.mp3" [Jval.num 5] 2
    (by norm_num)

/-- Outcome of one execution of `load_markers_from_db`: `raised` means an
exception escaped to the caller. -/
inductive LoadOutcome where
  | ok (markers : List Marker)
  | raised
deriving DecidableEq

/-- `load_markers_from_db` with fault injection. Statement 0 is
`get_db_connection()` / `conn.cursor()`, which the source calls *outside*
the `try` block: a failure there (e.g. storage unreachable) propagates to
the caller. Statement 1 is the `SELECT`/`fetchall` inside the `try`: a
failure there is caught, logged, and yields `[]`. -/
def load_markers_steps (db : List Row) (u f : String) (failAt : Option ℕ) : LoadOutcome :=
  if failAt = some 0 then .raised
  else if failAt = some 1 then .ok []
  else .ok (load_markers_from_db db u f)

/-- Counterexample to C3: when the storage medium is unreachable,
`get_db_connection()` — called before the `try` block of
`load_markers_from_db` — raises, and the exception escapes to the caller
instead of an empty sequence being returned. -/
theorem load_conn_failure_raises :
    load_markers_steps [] "alice" "a.mp3" (some 0) = LoadOutcome.raised
      ∧ LoadOutcome.raised ≠ LoadOutcome.ok [] :=
  ⟨rfl, fun h => LoadOutcome.noConfusion h⟩

/-- C3 (amended): `load_markers_from_db` returns the stored MarkerSet
ordered by ascending time, an empty sequence when no markers exist for the
pair, and an empty sequence (failure only logged) when the query inside the
`try` block fails; but a failure to establish the connection — the storage
medium being unreachable — happens before the `try` block and propagates
to the caller as a raised error. -/
theorem load_markers_behavior (db : List Row) (u f : String) :
    load_markers_steps db u f none = .ok (load_markers_from_db db u f)
      ∧ List.Sorted timeLE (load_markers_from_db db u f)
      ∧ (rowsFor u f db = [] → load_markers_from_db db u f = [])
      ∧ load_markers_steps db u f (some 1) = .ok []
      ∧ load_markers_steps db u f (some 0) = .raised := by
  refine ⟨rfl, ?_, ?_, rfl, rfl⟩
  · exact List.sorted_insertionSort timeLE (rowsFor u f db)
  · intro h
    rw [load_markers_from_db, h]
    rfl

/-- Witness for C3 (amended) at a concrete empty store. -/
theorem load_markers_behavior_witness :
    load_markers_from_db [] "carol" "c.mp3" = [] :=
  (load_markers_behavior [] "carol" "c.mp3").2.2.1 rfl

/-- The `POST /markers/<filename>/<username>` handler `save_markers`:
401 when no session identity exists, 403 when the acting identity differs
from the target username (the store is not invoked), 200 on a successful
`save_markers_to_db`, 500 when it raises. The returned pair is the HTTP
status and the committed table afterwards. -/
def save_markers_route (sessionUser : Option String) (filename target : String)
    (db : List Row) (markers : List Jval) : ℕ × List Row :=
  match sessionUser with
  | none => (401, db)
  | some cu =>
      if cu ≠ target then (403, db)
      else
        match save_markers_to_db db target filename markers with
        | .ok t => (200, t)
        | .error _ => (500, db)

/-- C4: every write request whose session identity differs from the target
username fails with 403 Forbidden and leaves the stored markers untouched —
`save_markers_to_db` is never invoked. -/
theorem save_route_forbidden (cu target filename : String) (db : List Row)
    (markers : List Jval) (hne : cu ≠ target) :
    save_markers_route (some cu) filename target db markers = (403, db) := by
  simp [save_markers_route, hne]

/-- Witness for C4: "alice" writing markers for "bob" gets 403 and "bob"'s
stored marker survives. -/
theorem save_route_forbidden_witness :
    save_markers_route (some "alice") "a.mp3" "bob" [⟨"bob", "a.mp3", 1, "keep"⟩]
      [Jval.num 9] = (403, [⟨"bob", "a.mp3", 1, "keep"⟩]) :=
  save_route_forbidden "alice" "bob" "a.mp3" [⟨"bob", "a.mp3", 1, "keep"⟩]
    [Jval.num 9] (by decide)

/-- C5: bare-number entries are normalized to `{time: value, label: ""}`
before storage: `[1.5, 3.0]` is stored as the two rows
`(u, f, 1.5, "")`, `(u, f, 3.0, "")`, and loading returns those records. -/
theorem bare_number_normalization (u f : String) :
    (∀ q : ℚ, normalizeMarker (Jval.num q) = some ⟨q, ""⟩)
      ∧ save_markers_to_db [] u f [Jval.num (3/2), Jval.num 3]
          = .ok [⟨u, f, 3/2, ""⟩, ⟨u, f, 3, ""⟩]
      ∧ load_markers_from_db [⟨u, f, 3/2, ""⟩, ⟨u, f, 3, ""⟩] u f
          = [⟨3/2, ""⟩, ⟨3, ""⟩] := by
  refine ⟨fun q => rfl, ?_, ?_⟩
  · simp [save_markers_to_db, runInserts, deleteMarkers, insertMarker, normalizeMarker, pyFloat]
    norm_num
  · simp only [load_markers_from_db, rowsFor, List.filter, List.map, List.insertionSort,
      List.orderedInsert]
    norm_num [timeLE]

/-- Counterexample to C9: a JSON `null` entry is neither a structured record
nor a plain number, yet it is not normalized — `float(None)` raises
`TypeError`, the save fails, and the handler returns the error (500) to the
caller. -/
theorem null_marker_escalates :
    save_markers_route (some "alice") "a.mp3" "alice" [] [Jval.null] = (500, [])
      ∧ save_markers_to_db [] "alice" "a.mp3" [Jval.null] = .error () :=
  ⟨rfl, rfl⟩

/-- A single normalizable entry is stored: after the `DELETE` no row for
`(u, f)` remains, so the `ON CONFLICT` clause never fires and the insert
appends the normalized row. -/
lemma save_single_normalized (db : List Row) (u f : String) (v : Jval) (mk : Marker)
    (h : normalizeMarker v = some mk) :
    save_markers_to_db db u f [v]
      = .ok (deleteMarkers db u f ++ [⟨u, f, mk.time, mk.label⟩]) := by
  have hany : ((deleteMarkers db u f).any fun r =>
      r.username = u ∧ r.audio_path = f ∧ r.time_sec = mk.time) = false := by
    cases hc : ((deleteMarkers db u f).any fun r =>
        r.username = u ∧ r.audio_path = f ∧ r.time_sec = mk.time) with
    | false => rfl
    | true =>
        obtain ⟨m, hm, _⟩ := (any_eq_rowsFor (deleteMarkers db u f) u f mk.time).1 hc
        rw [rowsFor_deleteMarkers] at hm
        exact absurd hm (List.not_mem_nil m)
  simp only [save_markers_to_db, runInserts, h]
  have hins : insertMarker (deleteMarkers db u f) u f mk.time mk.label
      = deleteMarkers db u f ++ [⟨u, f, mk.time, mk.label⟩] := by
    simp only [insertMarker, hany]
    simp
  rw [hins]

/-- C9 (amended): an entry that is not a structured record is passed to the
numeric fallback `float(marker)`: a number coerces to itself, a boolean to
`1.0`/`0.0`, and a finite-decimal-literal string to its numeric value, and
the entry is normalized to `{time: value, label: ""}` and stored; but when
the coercion raises — as for `null` or a list — the exception escalates and
the whole save fails with the error returned to the caller. -/
theorem numeric_fallback_behavior (db : List Row) (u f : String) :
    (∀ q : ℚ, normalizeMarker (Jval.num q) = some ⟨q, ""⟩
        ∧ save_markers_to_db db u f [Jval.num q]
            = .ok (deleteMarkers db u f ++ [⟨u, f, q, ""⟩]))
      ∧ (∀ b : Bool, normalizeMarker (Jval.boolV b) = some ⟨if b then 1 else 0, ""⟩)
      ∧ (∀ (s : String) (q : ℚ), pyFloatStr s = some q →
          normalizeMarker (Jval.str s) = some ⟨q, ""⟩
            ∧ save_markers_to_db db u f [Jval.str s]
                = .ok (deleteMarkers db u f ++ [⟨u, f, q, ""⟩]))
      ∧ save_markers_to_db db u f [Jval.null] = .error ()
      ∧ (∀ xs : List Jval, save_markers_to_db db u f [Jval.arr xs] = .error ()) := by
  refine ⟨?_, ?_, ?_, rfl, ?_⟩
  · intro q
    exact ⟨rfl, save_single_normalized db u f (Jval.num q) ⟨q, ""⟩ rfl⟩
  · intro b
    rfl
  · intro s q hs
    have hn : normalizeMarker (Jval.str s) = some ⟨q, ""⟩ := by
      simp [normalizeMarker, pyFloat, hs]
    exact ⟨hn, save_single_normalized db u f (Jval.str s) ⟨q, ""⟩ hn⟩
  · intro xs
    rfl

/-- Witness for C9 (amended): the numeric string `"25"` coerces under the
fallback and is stored as time 25 with an empty label, on a store already
holding another user's row. -/
theorem numeric_fallback_behavior_witness :
    save_markers_to_db [⟨"bob", "b.mp3", 1, "keep"⟩] "alice" "x.mp3" [Jval.str "25"]
      = .ok (deleteMarkers [⟨"bob", "b.mp3", 1, "keep"⟩] "alice" "x.mp3"
          ++ [⟨"alice", "x.mp3", 25, ""⟩]) :=
  ((numeric_fallback_behavior [⟨"bob", "b.mp3", 1, "keep"⟩] "alice" "x.mp3").2.2.1
    "25" 25 (by decide)).2

/-- Counterexample to C10: a dict entry lacking a `'time'` key is not always
stored successfully — with `{'t': null}` the fallback value is `None`,
which violates the `NOT NULL` constraint on `time_sec` declared in
`init_db`, so the insert raises and the save fails. -/
theorem dict_time_fallback_rejected :
    save_markers_to_db [] "alice" "a.mp3" [Jval.obj [("t", Jval.null)]] = .error () := rfl

/-- C10 (amended): a dict entry lacking a `'time'` key falls back to the
value of its `'t'` key and, failing that, to `0`, with the entry's label
preserved; such an entry is stored successfully provided the resulting
timestamp is a number and the label a string (otherwise the insert violates
the column types of the `markers` table and the save fails, as the
counterexample shows). -/
theorem dict_time_fallback (kvs : List (String × Jval)) (db : List Row) (u f : String)
    (q : ℚ) (s : String)
    (htime : objGet kvs "time" = none)
    (ht : objGet kvs "t" = some (Jval.num q) ∨ (objGet kvs "t" = none ∧ q = 0))
    (hl : objGet kvs "label" = some (Jval.str s) ∨ (objGet kvs "label" = none ∧ s = "")) :
    normalizeMarker (Jval.obj kvs) = some ⟨q, s⟩
      ∧ save_markers_to_db db u f [Jval.obj kvs]
          = .ok (deleteMarkers db u f ++ [⟨u, f, q, s⟩]) := by
  have hnorm : normalizeMarker (Jval.obj kvs) = some ⟨q, s⟩ := by
    simp only [normalizeMarker, htime, Option.getD_none]
    rcases ht with ht | ⟨ht, hq⟩
    · rcases hl with hl | ⟨hl, hs⟩
      · simp [ht, hl, coerceTime, coerceLabel]
      · subst hs
        simp [ht, hl, coerceTime, coerceLabel]
    · subst hq
      rcases hl with hl | ⟨hl, hs⟩
      · simp [ht, hl, coerceTime, coerceLabel]
      · subst hs
        simp [ht, hl, coerceTime, coerceLabel]
  have hany : ((deleteMarkers db u f).any fun r =>
      r.username = u ∧ r.audio_path = f ∧ r.time_sec = q) = false := by
    cases h : ((deleteMarkers db u f).any fun r =>
        r.username = u ∧ r.audio_path = f ∧ r.time_sec = q) with
    | false => rfl
    | true =>
        obtain ⟨m, hm, _⟩ := (any_eq_rowsFor (deleteMarkers db u f) u f q).1 h
        rw [rowsFor_deleteMarkers] at hm
        exact absurd hm (List.not_mem_nil m)
  refine ⟨hnorm, ?_⟩
  simp only [save_markers_to_db, runInserts, hnorm]
  have hins : insertMarker (deleteMarkers db u f) u f q s
      = deleteMarkers db u f ++ [⟨u, f, q, s⟩] := by
    simp only [insertMarker, hany]
    simp
  rw [hins]

/-- Witness for C10 (amended): `{'t': 7, 'label': "x"}` is normalized to
time 7 with the label preserved and stored. -/
theorem dict_time_fallback_witness :
    normalizeMarker (Jval.obj [("t", Jval.num 7), ("label", Jval.str "x")]) = some ⟨7, "x"⟩
      ∧ save_markers_to_db [] "alice" "f.mp3"
          [Jval.obj [("t", Jval.num 7), ("label", Jval.str "x")]]
          = .ok (deleteMarkers [] "alice" "f.mp3" ++ [⟨"alice", "f.mp3", 7, "x"⟩]) :=
  dict_time_fallback [("t", Jval.num 7), ("label", Jval.str "x")] [] "alice" "f.mp3" 7 "x"
    rfl (Or.inl rfl) (Or.inl rfl)

/-- `defaultdict(list)` append under a key, preserving first-appearance key
order: `all_markers[key].append(value)` (also used by the folder scanner's
`structure[folder].append(rel_path)`). -/
def pushEntry {β : Type} : List (String × List β) → String → β → List (String × List β)
  | [], u, m => [(u, [m])]
  | (v, l) :: rest, u, m =>
      if v = u then (v, l ++ [m]) :: rest else (v, l) :: pushEntry rest u m

/-- The list stored under a key of such an association list (`[]` when the
key is absent). -/
def lookupList {β : Type} (u : String) : List (String × List β) → List β
  | [] => []
  | (v, l) :: rest => if v = u then l else lookupList u rest

lemma mem_keys_pushEntry {β : Type} (acc : List (String × List β)) (v : String) (m : β)
    (u : String) :
    u ∈ (pushEntry acc v m).map Prod.fst ↔ u ∈ acc.map Prod.fst ∨ u = v := by
  induction acc with
  | nil => simp [pushEntry, eq_comm]
  | cons p rest ih =>
      obtain ⟨w, l⟩ := p
      by_cases h : w = v
      · subst h
        simp [pushEntry]
        tauto
      · simp [pushEntry, h, ih]
        tauto

lemma lookupList_pushEntry {β : Type} (acc : List (String × List β)) (v : String) (m : β)
    (u : String) :
    lookupList u (pushEntry acc v m)
      = if v = u then lookupList u acc ++ [m] else lookupList u acc := by
  induction acc with
  | nil =>
      by_cases h : v = u <;> simp [pushEntry, lookupList, h]
  | cons p rest ih =>
      obtain ⟨w, l⟩ := p
      by_cases hwv : w = v
      · subst hwv
        by_cases hwu : w = u <;> simp [pushEntry, lookupList, hwu]
      · by_cases hwu : w = u
        · have hvu : ¬ v = u := fun hc => hwv (hwu.trans hc.symm)
          have huv : ¬ u = v := fun hc => hvu hc.symm
          simp [pushEntry, hwv, lookupList, hwu, hvu, huv]
        · simp [pushEntry, hwv, lookupList, hwu, ih]

lemma keys_pushEntry {β : Type} (acc : List (String × List β)) (v : String) (m : β) :
    (pushEntry acc v m).map Prod.fst
      = if v ∈ acc.map Prod.fst then acc.map Prod.fst else acc.map Prod.fst ++ [v] := by
  induction acc with
  | nil => simp [pushEntry]
  | cons p rest ih =>
      obtain ⟨w, l⟩ := p
      by_cases h : w = v
      · subst h
        simp [pushEntry]
      · by_cases hmem : v ∈ rest.map Prod.fst <;>
          simp [pushEntry, h, ih, hmem, Ne.symm h]

lemma nodup_keys_pushEntry {β : Type} {acc : List (String × List β)} (v : String) (m : β)
    (h : (acc.map Prod.fst).Nodup) : ((pushEntry acc v m).map Prod.fst).Nodup := by
  rw [keys_pushEntry]
  by_cases hmem : v ∈ acc.map Prod.fst
  · simpa [hmem] using h
  · rw [if_neg hmem]
    rw [List.nodup_append]
    exact ⟨h, List.nodup_singleton v, by simpa using hmem⟩

lemma lookupList_of_mem {β : Type} :
    ∀ {acc : List (String × List β)}, (acc.map Prod.fst).Nodup →
      ∀ p ∈ acc, lookupList p.1 acc = p.2 := by
  intro acc
  induction acc with
  | nil => intro _ p hp; exact absurd hp (List.not_mem_nil p)
  | cons q rest ih =>
      obtain ⟨w, l⟩ := q
      intro hnd p hp
      rw [List.map_cons, List.nodup_cons] at hnd
      rcases List.mem_cons.1 hp with hp | hp
      · subst hp
        simp [lookupList]
      · have hne : ¬ w = p.1 := by
          intro hcon
          exact hnd.1 (hcon ▸ List.mem_map.2 ⟨p, hp, rfl⟩)
        simp only [lookupList, if_neg hne]
        exact ih hnd.2 p hp

/-- The `(time, label)` dictionary value built from a row by
`load_all_users_markers`. -/
def markerOf (r : Row) : Marker := ⟨r.time_sec, r.label⟩

/-- Comparison realizing `ORDER BY username, time_sec`. -/
def rowLE (a b : Row) : Prop :=
  a.username < b.username ∨ (a.username = b.username ∧ a.time_sec ≤ b.time_sec)

instance : DecidableRel rowLE := fun a b =>
  inferInstanceAs (Decidable (a.username < b.username
    ∨ (a.username = b.username ∧ a.time_sec ≤ b.time_sec)))

instance : IsTotal Row rowLE := by
  constructor
  intro a b
  rcases lt_trichotomy a.username b.username with h | h | h
  · exact Or.inl (Or.inl h)
  · rcases le_total a.time_sec b.time_sec with ht | ht
    · exact Or.inl (Or.inr ⟨h, ht⟩)
    · exact Or.inr (Or.inr ⟨h.symm, ht⟩)
  · exact Or.inr (Or.inl h)

instance : IsTrans Row rowLE := by
  constructor
  intro a b c hab hbc
  rcases hab with hab | ⟨hab, hab'⟩ <;> rcases hbc with hbc | ⟨hbc, hbc'⟩
  · exact Or.inl (lt_trans hab hbc)
  · exact Or.inl (hbc ▸ hab)
  · exact Or.inl (hab ▸ hbc)
  · exact Or.inr ⟨hab.trans hbc, hab'.trans hbc'⟩

/-- The grouping loop of `load_all_users_markers` (`defaultdict(list)` over
rows sorted by `(username, time_sec)`), started from an accumulator. -/
def groupRowsAux (acc : List (String × List Marker)) (rows : List Row) :
    List (String × List Marker) :=
  rows.foldl (fun a r => pushEntry a r.username (markerOf r)) acc

lemma lookupList_groupRowsAux (rows : List Row) :
    ∀ (acc : List (String × List Marker)) (u : String),
      lookupList u (groupRowsAux acc rows)
        = lookupList u acc ++ (rows.filter fun r => r.username = u).map markerOf := by
  induction rows with
  | nil => intro acc u; simp [groupRowsAux]
  | cons r rest ih =>
      intro acc u
      have hstep : groupRowsAux acc (r :: rest)
          = groupRowsAux (pushEntry acc r.username (markerOf r)) rest := rfl
      rw [hstep, ih, lookupList_pushEntry]
      by_cases h : r.username = u
      · simp [h, List.filter_cons]
      · simp [h, List.filter_cons]

lemma mem_keys_groupRowsAux (rows : List Row) :
    ∀ (acc : List (String × List Marker)) (u : String),
      u ∈ (groupRowsAux acc rows).map Prod.fst
        ↔ u ∈ acc.map Prod.fst ∨ ∃ r ∈ rows, r.username = u := by
  induction rows with
  | nil => intro acc u; simp [groupRowsAux]
  | cons r rest ih =>
      intro acc u
      have hstep : groupRowsAux acc (r :: rest)
          = groupRowsAux (pushEntry acc r.username (markerOf r)) rest := rfl
      rw [hstep, ih, mem_keys_pushEntry]
      simp only [List.mem_cons]
      constructor
      · rintro ((h | h) | ⟨r', hr', hu⟩)
        · exact Or.inl h
        · exact Or.inr ⟨r, Or.inl rfl, h.symm⟩
        · exact Or.inr ⟨r', Or.inr hr', hu⟩
      · rintro (h | ⟨r', hr' | hr', hu⟩)
        · exact Or.inl (Or.inl h)
        · subst hr'; exact Or.inl (Or.inr hu.symm)
        · exact Or.inr ⟨r', hr', hu⟩

lemma nodup_keys_groupRowsAux (rows : List Row) :
    ∀ acc : List (String × List Marker), (acc.map Prod.fst).Nodup →
      ((groupRowsAux acc rows).map Prod.fst).Nodup := by
  induction rows with
  | nil => intro acc h; exact h
  | cons r rest ih =>
      intro acc h
      exact ih (pushEntry acc r.username (markerOf r)) (nodup_keys_pushEntry _ _ h)

/-- `load_all_users_markers(audio_path)`:
`SELECT username, time_sec, label FROM markers WHERE audio_path=%s ORDER BY
username, time_sec`, grouped per user with a `defaultdict(list)`. -/
def load_all_users_markers (db : List Row) (f : String) : List (String × List Marker) :=
  groupRowsAux [] (List.insertionSort rowLE (db.filter fun r => r.audio_path = f))

/-- The `GET /markers/<filename>` handler `get_markers`: the per-user
mapping from `load_all_users_markers`, then an empty list back-filled for
every registered user absent from it. -/
def get_markers_route (db : List Row) (users : List String) (f : String) :
    List (String × List Marker) :=
  users.foldl (fun acc u => if acc.any fun p => p.1 = u then acc else acc ++ [(u, [])])
    (load_all_users_markers db f)

lemma mem_keys_backfill (users : List String) :
    ∀ (acc : List (String × List Marker)) (u : String),
      u ∈ ((users.foldl (fun acc v =>
          if acc.any fun p => p.1 = v then acc else acc ++ [(v, [])]) acc).map Prod.fst)
        ↔ u ∈ acc.map Prod.fst ∨ u ∈ users := by
  induction users with
  | nil => intro acc u; simp
  | cons v rest ih =>
      intro acc u
      simp only [List.foldl_cons]
      by_cases hv : (acc.any fun p => p.1 = v) = true
      · have hvk : v ∈ acc.map Prod.fst := by
          obtain ⟨p, hp, hpv⟩ := List.any_eq_true.1 hv
          simp only [decide_eq_true_eq] at hpv
          exact List.mem_map.2 ⟨p, hp, hpv⟩
        rw [if_pos hv, ih]
        simp only [List.mem_cons]
        constructor
        · rintro (h | h)
          · exact Or.inl h
          · exact Or.inr (Or.inr h)
        · rintro (h | h | h)
          · exact Or.inl h
          · exact Or.inl (h ▸ hvk)
          · exact Or.inr h
      · rw [if_neg hv, ih]
        simp only [List.map_append, List.mem_append, List.map_cons, List.map_nil,
          List.mem_singleton, List.mem_cons]
        tauto

/-- C6: `load_all_users_markers` returns a mapping whose domain is exactly
the users having at least one marker on the file (users with zero markers
are omitted), each mapped to their MarkerSet ordered by ascending time; the
route layer (`get_markers`) then back-fills an empty list for every
registered user absent from the mapping, so every registered user is
represented in the merged response. -/
theorem load_all_markers_spec (db : List Row) (f : String) (users : List String) :
    (∀ u : String, u ∈ (load_all_users_markers db f).map Prod.fst
        ↔ ∃ r ∈ db, r.audio_path = f ∧ r.username = u)
      ∧ (∀ p ∈ load_all_users_markers db f,
          List.Sorted timeLE p.2
            ∧ ∀ m : Marker, m ∈ p.2 ↔
                ∃ r ∈ db, r.username = p.1 ∧ r.audio_path = f
                  ∧ r.time_sec = m.time ∧ r.label = m.label)
      ∧ (∀ u ∈ users, u ∈ (get_markers_route db users f).map Prod.fst) := by
  have hmemrows : ∀ r : Row,
      r ∈ List.insertionSort rowLE (db.filter fun s => s.audio_path = f)
        ↔ r ∈ db ∧ r.audio_path = f := by
    intro r
    rw [List.mem_insertionSort]
    simp [List.mem_filter]
  refine ⟨?_, ?_, ?_⟩
  · intro u
    rw [load_all_users_markers, mem_keys_groupRowsAux]
    simp only [List.map_nil, List.not_mem_nil, false_or]
    constructor
    · rintro ⟨r, hr, hu⟩
      obtain ⟨hdb, hpath⟩ := (hmemrows r).1 hr
      exact ⟨r, hdb, hpath, hu⟩
    · rintro ⟨r, hdb, hpath, hu⟩
      exact ⟨r, (hmemrows r).2 ⟨hdb, hpath⟩, hu⟩
  · intro p hp
    have hnodup := nodup_keys_groupRowsAux
      (List.insertionSort rowLE (db.filter fun s => s.audio_path = f)) [] (by simp)
    have hp2 : lookupList p.1 (load_all_users_markers db f) = p.2 :=
      lookupList_of_mem hnodup p hp
    have hlk : lookupList p.1 (load_all_users_markers db f)
        = ((List.insertionSort rowLE (db.filter fun s => s.audio_path = f)).filter
            fun r => r.username = p.1).map markerOf := by
      rw [load_all_users_markers, lookupList_groupRowsAux]
      simp [lookupList]
    have hp2' : p.2
        = ((List.insertionSort rowLE (db.filter fun s => s.audio_path = f)).filter
            fun r => r.username = p.1).map markerOf := hp2.symm.trans hlk
    constructor
    · rw [hp2']
      rw [List.Sorted, List.pairwise_map]
      have hfil : ((List.insertionSort rowLE (db.filter fun s => s.audio_path = f)).filter
          fun r => r.username = p.1).Pairwise rowLE :=
        List.Pairwise.filter _ (List.sorted_insertionSort rowLE _)
      refine List.Pairwise.imp_of_mem ?_ hfil
      intro a b ha hb hab
      have hau : a.username = p.1 := by simpa using List.of_mem_filter ha
      have hbu : b.username = p.1 := by simpa using List.of_mem_filter hb
      rcases hab with hab | ⟨_, hab⟩
      · rw [hau, hbu] at hab
        exact absurd hab (lt_irrefl p.1)
      · exact hab
    · intro m
      rw [hp2']
      simp only [List.mem_map, List.mem_filter, decide_eq_true_eq]
      constructor
      · rintro ⟨r, ⟨hr, hu⟩, hm⟩
        obtain ⟨hdb, hpath⟩ := (hmemrows r).1 hr
        refine ⟨r, hdb, hu, hpath, ?_, ?_⟩
        · rw [← hm]
          rfl
        · rw [← hm]
          rfl
      · rintro ⟨r, hdb, hu, hpath, htime, hlabel⟩
        refine ⟨r, ⟨(hmemrows r).2 ⟨hdb, hpath⟩, hu⟩, ?_⟩
        rw [markerOf, htime, hlabel]
  · intro u hu
    rw [get_markers_route, mem_keys_backfill]
    exact Or.inr hu

/-- Witness for C6: with rows for "bob" only, the back-filled response also
lists the registered user "alice". -/
theorem load_all_markers_spec_witness :
    "alice" ∈ (get_markers_route [⟨"bob", "a.mp3", 2, "x"⟩, ⟨"bob", "a.mp3", 1, "y"⟩]
        ["alice", "bob"] "a.mp3").map Prod.fst
      ∧ ("carol" ∈ (load_all_users_markers [⟨"bob", "a.mp3", 2, "x"⟩] "a.mp3").map Prod.fst
          ↔ ∃ r ∈ [(⟨"bob", "a.mp3", 2, "x"⟩ : Row)], r.audio_path = "a.mp3"
              ∧ r.username = "carol") :=
  ⟨(load_all_markers_spec [⟨"bob", "a.mp3", 2, "x"⟩, ⟨"bob", "a.mp3", 1, "y"⟩] "a.mp3"
      ["alice", "bob"]).2.2 "alice" (by decide),
    (load_all_markers_spec [⟨"bob", "a.mp3", 2, "x"⟩] "a.mp3" []).1 "carol"⟩

/-- Python's `str.endswith(suffix)`. -/
def strEndsWith (s suffix : String) : Bool :=
  List.isSuffixOf suffix.toList s.toList

/-- The audio-extension allow-list check
`file.endswith(('.mp3', '.wav', '.m4a', '.ogg'))` of `get_folder_structure`,
applied to a file's base name. -/
def hasAudioExt (name : String) : Bool :=
  [".mp3", ".wav", ".m4a", ".ogg"].any fun e => strEndsWith name e

/-- Split a character list on `'/'` (every occurrence). -/
def splitSlashAux : List Char → List Char → List (List Char)
  | [], cur => [cur.reverse]
  | c :: cs, cur =>
      if c = '/' then cur.reverse :: splitSlashAux cs [] else splitSlashAux cs (c :: cur)

/-- Split a string on `'/'`; always returns at least one piece, and returns
two or more pieces exactly when the string contains a `'/'`. -/
def splitSlash (s : String) : List String :=
  (splitSlashAux s.toList []).map String.mk

/-- A file's path relative to the upload root with `/` separators, from its
path segments (`os.path.relpath` + `replace('\\', '/')`). -/
def relPath (segs : List String) : String :=
  String.intercalate "/" segs

/-- The base name of a file given by its path segments (the `file` variable
of the `os.walk` loop). -/
def baseName (segs : List String) : String :=
  segs.getLastD ""

/-- The sentinel folder label for files directly under the upload root. -/
def rootLabel : String := "📁 루트"

/-- The grouping key of `get_folder_structure`:
`rel_path.rsplit('/', 1)[0]` when the relative path contains a `'/'`, the
sentinel root label otherwise. -/
def folderLabel (rel : String) : String :=
  let parts := splitSlash rel
  if 2 ≤ parts.length then String.intercalate "/" parts.dropLast else rootLabel

/-- The filesystem state under the upload root as seen by `os.walk`: whether
the root exists, and the files below it (as root-relative segment lists) in
walk order. -/
structure FileSys where
  rootExists : Bool
  files : List (List String)

/-- The grouping loop of `get_folder_structure`
(`structure[folder].append(rel_path)` over the walked files). -/
def groupFilesAux (acc : List (String × List String)) (entries : List (List String)) :
    List (String × List String) :=
  entries.foldl (fun a segs => pushEntry a (folderLabel (relPath segs)) (relPath segs)) acc

/-- `get_folder_structure()`: empty when the upload root does not exist;
otherwise the walked files with an allow-listed audio extension, grouped by
parent-folder label, each group's relative-path list sorted. -/
def get_folder_structure (fs : FileSys) : List (String × List String) :=
  if fs.rootExists then
    (groupFilesAux [] (fs.files.filter fun segs => hasAudioExt (baseName segs))).map
      fun p => (p.1, List.insertionSort (fun a b : String => a ≤ b) p.2)
  else []

lemma lookupList_groupFilesAux (entries : List (List String)) :
    ∀ (acc : List (String × List String)) (u : String),
      lookupList u (groupFilesAux acc entries)
        = lookupList u acc
            ++ (entries.filter fun segs => folderLabel (relPath segs) = u).map relPath := by
  induction entries with
  | nil => intro acc u; simp [groupFilesAux]
  | cons segs rest ih =>
      intro acc u
      have hstep : groupFilesAux acc (segs :: rest)
          = groupFilesAux (pushEntry acc (folderLabel (relPath segs)) (relPath segs)) rest := rfl
      rw [hstep, ih, lookupList_pushEntry]
      by_cases h : folderLabel (relPath segs) = u
      · simp [h, List.filter_cons]
      · simp [h, List.filter_cons]

lemma nodup_keys_groupFilesAux (entries : List (List String)) :
    ∀ acc : List (String × List String), (acc.map Prod.fst).Nodup →
      ((groupFilesAux acc entries).map Prod.fst).Nodup := by
  induction entries with
  | nil => intro acc h; exact h
  | cons segs rest ih =>
      intro acc h
      exact ih (pushEntry acc (folderLabel (relPath segs)) (relPath segs))
        (nodup_keys_pushEntry _ _ h)

/-- C7: the folder scanner returns an empty mapping when the upload root
does not exist; each folder's file list is sorted lexicographically; every
listed relative path comes from a walked file with an allow-listed audio
extension and is keyed under its parent-folder label; and on the example
tree `root/a/x.mp3`, `root/b/sub/y.wav`, `root/z.mp3` it yields
`{"a": ["a/x.mp3"], "b/sub": ["b/sub/y.wav"], rootLabel: ["z.mp3"]}`. -/
theorem folder_structure_spec (fs : FileSys) :
    (fs.rootExists = false → get_folder_structure fs = [])
      ∧ (∀ p ∈ get_folder_structure fs, List.Sorted (fun a b : String => a ≤ b) p.2)
      ∧ (∀ p ∈ get_folder_structure fs, ∀ rel ∈ p.2, ∃ segs ∈ fs.files,
          rel = relPath segs ∧ hasAudioExt (baseName segs) = true
            ∧ p.1 = folderLabel (relPath segs))
      ∧ get_folder_structure ⟨true, [["a", "x.mp3"], ["b", "sub", "y.wav"], ["z.mp3"]]⟩
          = [("a", ["a/x.mp3"]), ("b/sub", ["b/sub/y.wav"]), (rootLabel, ["z.mp3"])] := by
  refine ⟨?_, ?_, ?_, ?_⟩
  · intro h
    simp [get_folder_structure, h]
  · intro p hp
    by_cases hroot : fs.rootExists
    · rw [get_folder_structure, if_pos hroot] at hp
      obtain ⟨p0, _, hmap⟩ := List.mem_map.1 hp
      rw [← hmap]
      exact List.sorted_insertionSort _ p0.2
    · rw [get_folder_structure, if_neg hroot] at hp
      exact absurd hp (List.not_mem_nil p)
  · intro p hp rel hrel
    by_cases hroot : fs.rootExists
    · rw [get_folder_structure, if_pos hroot] at hp
      obtain ⟨p0, hp0, hmap⟩ := List.mem_map.1 hp
      have hnodup := nodup_keys_groupFilesAux
        (fs.files.filter fun segs => hasAudioExt (baseName segs)) [] (by simp)
      have hp02 : lookupList p0.1 (groupFilesAux []
          (fs.files.filter fun segs => hasAudioExt (baseName segs))) = p0.2 :=
        lookupList_of_mem hnodup p0 hp0
      have hlk : p0.2 = ((fs.files.filter fun segs => hasAudioExt (baseName segs)).filter
          fun segs => folderLabel (relPath segs) = p0.1).map relPath := by
        rw [← hp02, lookupList_groupFilesAux]
        simp [lookupList]
      have hrel0 : rel ∈ p0.2 := by
        rw [← hmap] at hrel
        exact (List.mem_insertionSort _).1 hrel
      rw [hlk] at hrel0
      obtain ⟨segs, hsegs, hrelEq⟩ := List.mem_map.1 hrel0
      rw [List.mem_filter] at hsegs
      obtain ⟨hsegs1, hfold⟩ := hsegs
      rw [List.mem_filter] at hsegs1
      refine ⟨segs, hsegs1.1, hrelEq.symm, by simpa using hsegs1.2, ?_⟩
      have : p.1 = p0.1 := by rw [← hmap]
      rw [this]
      exact (by simpa using hfold : folderLabel (relPath segs) = p0.1).symm
    · rw [get_folder_structure, if_neg hroot] at hp
      exact absurd hp (List.not_mem_nil p)
  · rfl

/-- Witness for C7: a missing upload root yields the empty mapping. -/
theorem folder_structure_spec_witness :
    get_folder_structure ⟨false, [["a", "x.mp3"]]⟩ = [] :=
  (folder_structure_spec ⟨false, [["a", "x.mp3"]]⟩).1 rfl

/-- The `POST /login` handler: the submitted name is stripped; an empty
result is rejected (400); otherwise the name is appended to the persisted
user list only when not already present, and the full list is rewritten
(`save_users`). The returned list is the persisted user list afterwards;
`load_users` / `GET /users` return it verbatim, in insertion order. -/
def login (users : List String) (raw : String) : Except Unit (List String) :=
  let username := strTrim raw
  if username = "" then .error ()
  else if username ∈ users then .ok users
  else .ok (users ++ [username])

/-- C8: `register_if_absent` (realized in `login`) appends the stripped name
to the persisted list only when it is not already present, persists the full
list on each such registration, keeps existing names in insertion order (the
old list is a prefix of the new one), and never removes a name. -/
theorem login_registers_if_absent (users : List String) (raw : String)
    (h : strTrim raw ≠ "") :
    (strTrim raw ∈ users → login users raw = .ok users)
      ∧ (strTrim raw ∉ users → login users raw = .ok (users ++ [strTrim raw]))
      ∧ ∀ res, login users raw = .ok res → users <+: res := by
  refine ⟨?_, ?_, ?_⟩
  · intro hmem
    simp [login, h, hmem]
  · intro hmem
    simp [login, h, hmem]
  · intro res hres
    by_cases hmem : strTrim raw ∈ users
    · simp [login, h, hmem] at hres
      exact ⟨[], by simp [hres]⟩
    · simp [login, h, hmem] at hres
      exact ⟨[strTrim raw], by simp [hres]⟩

/-- Witness for C8: logging in as `" alice "` registers the stripped name
`"alice"` at the end of the existing list. -/
theorem login_registers_if_absent_witness :
    login ["bob"] " alice " = .ok (["bob"] ++ [strTrim " alice "]) :=
  (login_registers_if_absent ["bob"] " alice " (by decide)).2.1 (by decide)

end ToeicPlayer
